import Mathlib

/-!
Verification of the transcript-accumulation and turn-segmentation logic of
the speechmatics-academy repository, centred on the medical-assistant
backend (services/transcription.py, services/extraction.py, main.py).

The Python handlers are embedded as pure Lean functions over an explicit
session state; machine floats carrying timestamps are modelled as rationals
(all timestamps in the claims are exact decimal values).
-/

namespace SpeechAcademy

/-- Whitespace characters stripped by the Python str.strip method
(ASCII space, tab, newline, carriage return, vertical tab, form feed). -/
def isPyWs (c : Char) : Bool :=
  c == ' ' || c == '\t' || c == '\n' || c == '\r' ||
  c == Char.ofNat 11 || c == Char.ofNat 12

/-- Python text.strip with no arguments: drop leading and trailing whitespace. -/
def pyStrip (s : String) : String :=
  String.mk (((s.toList.dropWhile isPyWs).reverse.dropWhile isPyWs).reverse)

/-- One alternative inside a per-word result of an ADD_TRANSCRIPT message;
the speaker key may be absent. -/
structure Alternative where
  content : String
  speaker : Option String
deriving DecidableEq

/-- One entry of the results array of an ADD_TRANSCRIPT message. -/
structure RTResult where
  rtype : String
  alternatives : List Alternative
deriving DecidableEq

/-- The speaker-collection loop of TranscriptionSession._get_dominant_speaker:
keep, for each result of type word whose first alternative carries a speaker
key, that speaker label, in order. -/
def extractSpeakers (results : List RTResult) : List String :=
  results.filterMap fun r =>
    if r.rtype ≠ "word" then none
    else
      match r.alternatives with
      | [] => none
      | a :: _ => a.speaker

/-- Helper for dedupFirst: keep the elements not yet seen, in order,
remembering the ones already kept. -/
def dedupFirstAux (seen : List String) : List String → List String
  | [] => []
  | x :: xs =>
      if x ∈ seen then dedupFirstAux seen xs
      else x :: dedupFirstAux (x :: seen) xs

/-- Iteration order of the keys of a Python Counter built from a list:
each distinct element once, ordered by first occurrence. -/
def dedupFirst (l : List String) : List String := dedupFirstAux [] l

/-- Number of occurrences of x in l (the count a Python Counter stores). -/
def countOcc (l : List String) (x : String) : ℕ := l.count x

/-- The scan of the Python max builtin with a key function: walk the
candidates keeping the current best, replacing it only on a strictly
larger key, so ties keep the earlier candidate. -/
def pickMax (f : String → ℕ) (b : String) : List String → String
  | [] => b
  | x :: xs => pickMax f (if f b < f x then x else b) xs

/-- Counter(l).most_common(1)[0][0], or none when l is empty.  CPython
implements most_common(1) via heapq.nlargest, which for n = 1 is max with
key = count: it scans the Counter items in insertion order (first-occurrence
order of l) and keeps the current item unless a strictly larger count
appears, so ties resolve to the earliest-first-occurring label. -/
def counterMostCommon (l : List String) : Option String :=
  match dedupFirst l with
  | [] => none
  | c :: cs => some (pickMax (countOcc l) c cs)

/-- Dominant speaker across the accumulated per-fragment votes: the
most-common vote when any vote exists, else the UNK sentinel (the shared
if-else of _get_dominant_speaker, on_eou and _flush_utterance). -/
def speakerOfVotes (votes : List String) : String :=
  match counterMostCommon votes with
  | some spk => spk
  | none => "UNK"

/-- TranscriptionSession._get_dominant_speaker: dominant per-word speaker of
one ADD_TRANSCRIPT message, with sentinel UNK when no word carries a label. -/
def getDominantSpeaker (results : List RTResult) : String :=
  speakerOfVotes (extractSpeakers results)

/-- Payload of an ADD_TRANSCRIPT message as read by the on_final handler. -/
structure FinalMsg where
  transcript : String
  start_time : ℚ
  end_time : ℚ
  results : List RTResult
deriving DecidableEq

/-- Payload of an END_OF_UTTERANCE message.  One upstream protocol variant
carries an explicit end_of_utterance_time, the other does not; the medical
backend handler receives the message but never reads this field. -/
structure EouMsg where
  end_of_utterance_time : Option ℚ
deriving DecidableEq

/-- The DiarizedTranscript dataclass.  The interim field models the boolean
flag the dataclass stores last (true only for partial transcripts). -/
structure DiarizedTranscript where
  text : String
  speaker : String
  start_time : ℚ
  end_time : ℚ
  interim : Bool
deriving DecidableEq

/-- Mutable state of a TranscriptionSession touched by the accumulator:
the four utterance fields plus the running flag. -/
structure SessionState where
  utterance_texts : List String
  utterance_speakers : List String
  utterance_start : ℚ
  utterance_end : ℚ
  running : Bool
deriving DecidableEq

/-- State right after TranscriptionSession.__init__. -/
def initSession : SessionState := ⟨[], [], 0, 0, false⟩

/-- State of a freshly started session (running, nothing accumulated). -/
def activeSession : SessionState := ⟨[], [], 0, 0, true⟩

/-- The on_final handler for ADD_TRANSCRIPT: return unchanged unless running
and the transcript strips to non-empty; otherwise record the start time on
the first fragment, always record the end time, append the stripped text,
and append the dominant speaker when it is not the UNK sentinel. -/
def on_final (msg : FinalMsg) (s : SessionState) : SessionState :=
  if s.running = false then s
  else if pyStrip msg.transcript = "" then s
  else
    { utterance_texts := s.utterance_texts ++ [pyStrip msg.transcript]
      utterance_speakers :=
        if getDominantSpeaker msg.results ≠ "UNK" then
          s.utterance_speakers ++ [getDominantSpeaker msg.results]
        else s.utterance_speakers
      utterance_start :=
        if s.utterance_texts = [] then msg.start_time else s.utterance_start
      utterance_end := msg.end_time
      running := s.running }

/-- The on_eou handler for END_OF_UTTERANCE: no-op when not running or when
nothing is accumulated; otherwise emit one DiarizedTranscript built from the
accumulated state (the message itself is never read) and reset the
accumulator fields. -/
def on_eou (_msg : EouMsg) (s : SessionState) : SessionState × Option DiarizedTranscript :=
  if s.running = false ∨ s.utterance_texts = [] then (s, none)
  else
    (⟨[], [], 0, 0, s.running⟩,
     some ⟨String.intercalate " " s.utterance_texts,
           speakerOfVotes s.utterance_speakers,
           s.utterance_start, s.utterance_end, false⟩)

/-- TranscriptionSession._flush_utterance: like on_eou it emits the combined
utterance when fragments are pending, but it does not check the running flag
and it clears only the two lists, leaving the start and end times in place. -/
def flush_utterance (s : SessionState) : SessionState × Option DiarizedTranscript :=
  if s.utterance_texts = [] then (s, none)
  else
    (⟨[], [], s.utterance_start, s.utterance_end, s.running⟩,
     some ⟨String.intercalate " " s.utterance_texts,
           speakerOfVotes s.utterance_speakers,
           s.utterance_start, s.utterance_end, false⟩)

/-- Feed a sequence of ADD_TRANSCRIPT messages through on_final in order. -/
def runFinals (msgs : List FinalMsg) (s : SessionState) : SessionState :=
  msgs.foldl (fun t m => on_final m t) s

/-- Text a running on_final appends for one message, if any. -/
def textOf (m : FinalMsg) : Option String :=
  if pyStrip m.transcript = "" then none else some (pyStrip m.transcript)

/-- Speaker vote a running on_final appends for one message, if any. -/
def voteOf (m : FinalMsg) : Option String :=
  if pyStrip m.transcript = "" then none
  else if getDominantSpeaker m.results ≠ "UNK" then some (getDominantSpeaker m.results)
  else none

/-! Speaker role inference (services/extraction.py). -/

/-- The SpeakerRole enum of services/extraction.py. -/
inductive SpeakerRole where
  | DOCTOR
  | PATIENT
  | UNKNOWN
deriving DecidableEq

/-- SpeakerRoleInference.DOCTOR_PATTERNS (English and Arabic clinical language). -/
def DOCTOR_PATTERNS : List String :=
  ["blood pressure", "pulse", "temperature", "let me examine",
   "i recommend", "i suggest", "prescribed", "diagnosis",
   "your vitals", "your symptoms", "examination shows",
   "we need to", "i\x27ll order", "the test", "follow-up",
   "ضغط الدم", "نبض", "حرارة", "الفحص", "الفحص يظهر",
   "أنصح", "أوصي", "العلاج", "التشخيص", "المتابعة"]

/-- SpeakerRoleInference.PATIENT_PATTERNS (English and Arabic patient language). -/
def PATIENT_PATTERNS : List String :=
  ["i feel", "i have", "it hurts", "i\x27m experiencing",
   "my pain", "when i", "i can\x27t", "i\x27ve been",
   "started yesterday", "woke up with", "since last",
   "أشعر", "عندي", "يؤلمني", "ألم في", "منذ",
   "بدأت", "أعاني من", "لا أستطيع"]

/-- Contiguous-sublist test on character lists. -/
def listInfix (p : List Char) : List Char → Bool
  | [] => p == []
  | c :: rest => p.isPrefixOf (c :: rest) || listInfix p rest

/-- The Python substring test p in t. -/
def pyIn (p t : String) : Bool := listInfix p.toList t.toList

/-- Python text.lower, character by character (ASCII letters are lowered,
everything else, including the Arabic letters of the patterns, is kept). -/
def pyLower (s : String) : String := String.mk (s.toList.map Char.toLower)

/-- Number of doctor patterns found in the lowercased text. -/
def doctorScore (text : String) : ℕ :=
  (DOCTOR_PATTERNS.filter (fun p => pyIn p (pyLower text))).length

/-- Number of patient patterns found in the lowercased text. -/
def patientScore (text : String) : ℕ :=
  (PATIENT_PATTERNS.filter (fun p => pyIn p (pyLower text))).length

/-- SpeakerRoleInference.infer_role: pattern scores first, then recorded
history for the speaker id, then the S1 and S2 defaults, then UNKNOWN.
The speaker history dict is modelled as an association list. -/
def infer_role (text speaker_id : String)
    (speaker_history : List (String × SpeakerRole)) : SpeakerRole :=
  let dscore := doctorScore text
  let pscore := patientScore text
  if pscore < dscore then SpeakerRole.DOCTOR
  else if dscore < pscore then SpeakerRole.PATIENT
  else
    match speaker_history.lookup speaker_id with
    | some r => r
    | none =>
      if speaker_id = "S1" then SpeakerRole.DOCTOR
      else if speaker_id = "S2" then SpeakerRole.PATIENT
      else SpeakerRole.UNKNOWN

/-- The role the claim C9 describes, written out as the claimed strict
precedence: pattern counts first regardless of history, then the recorded
role for the speaker id, then the S1 and S2 defaults, then UNKNOWN. -/
def inferRoleClaimed (text speaker_id : String)
    (speaker_history : List (String × SpeakerRole)) : SpeakerRole :=
  if doctorScore text > patientScore text then SpeakerRole.DOCTOR
  else if patientScore text > doctorScore text then SpeakerRole.PATIENT
  else
    match speaker_history.lookup speaker_id with
    | some r => r
    | none =>
      if speaker_id = "S1" then SpeakerRole.DOCTOR
      else if speaker_id = "S2" then SpeakerRole.PATIENT
      else SpeakerRole.UNKNOWN

/-! The debounced extraction trigger (backend/main.py). -/

/-- The quiet period of _debounced_extraction, in seconds (asyncio.sleep 1.5). -/
def quietPeriod : ℚ := 3 / 2

/-- State of the debounce machinery of the ConsultationSession: the
_pending_extraction flag, the countdown of the live _extraction_task when
one is neither absent nor done (as the absolute time it will fire), and the
number of times the extraction body has run. -/
structure DebounceState where
  pending : Bool
  timer : Option ℚ
  execs : ℕ
deriving DecidableEq

/-- Debounce state before the first final transcript. -/
def debInit : DebounceState := ⟨false, none, 0⟩

/-- The scheduling tail of on_final_transcript at time t: set the pending
flag, and create a new countdown of quietPeriod only when no live task
exists; an existing countdown is left untouched. -/
def scheduleCall (t : ℚ) (s : DebounceState) : DebounceState :=
  { pending := true
    timer :=
      match s.timer with
      | none => some (t + quietPeriod)
      | some u => some u
    execs := s.execs }

/-- The body of _debounced_extraction when its sleep elapses: the task is
now done either way; the extraction runs only when the pending flag is
still set, and clears it. -/
def fireTimer (s : DebounceState) : DebounceState :=
  if s.pending then ⟨false, none, s.execs + 1⟩ else ⟨s.pending, none, s.execs⟩

/-- Process a burst of final-transcript arrivals at the given times. -/
def runCalls (ts : List ℚ) (s : DebounceState) : DebounceState :=
  ts.foldl (fun a t => scheduleCall t a) s

/-! Spec-side definitions used to compare the code against the claims. -/

/-- Largest occurrence count any label attains in l. -/
def maxCount (l : List String) : ℕ :=
  ((dedupFirst l).map (countOcc l)).foldr max 0

/-- Helper scan for firstToReachMax: walk l keeping the prefix seen so far,
and return the first element whose running count reaches m. -/
def firstToReachMaxAux (m : ℕ) : List String → List String → Option String
  | _, [] => none
  | seen, x :: rest =>
      if countOcc (seen ++ [x]) x = m then some x
      else firstToReachMaxAux m (seen ++ [x]) rest

/-- Wording of the claimed tie-break of C3: the first label to reach the
maximum occurrence count in input order. -/
def firstToReachMax (l : List String) : Option String :=
  firstToReachMaxAux (maxCount l) [] l

/-- The accumulator invariant in the direction the code maintains outside
flush: an empty pending list forces the turn start time back to its
initial value. -/
def accumInv (s : SessionState) : Prop :=
  s.utterance_texts = [] → s.utterance_start = 0

instance (s : SessionState) : Decidable (accumInv s) := by
  unfold accumInv; infer_instance

/-! Helper lemmas about the Counter model. -/

theorem mem_dedupFirstAux (l : List String) :
    ∀ (seen : List String) (x : String),
      x ∈ dedupFirstAux seen l ↔ x ∈ l ∧ x ∉ seen := by
  induction l with
  | nil => intro seen x; simp [dedupFirstAux]
  | cons a as ih =>
    intro seen x
    by_cases ha : a ∈ seen
    · rw [dedupFirstAux, if_pos ha, ih]
      constructor
      · rintro ⟨hx, hns⟩
        exact ⟨List.mem_cons_of_mem a hx, hns⟩
      · rintro ⟨hx, hns⟩
        rcases List.mem_cons.mp hx with h | h
        · exact absurd (h ▸ ha) hns
        · exact ⟨h, hns⟩
    · rw [dedupFirstAux, if_neg ha]
      by_cases hxa : x = a
      · subst hxa
        simp [ha]
      · constructor
        · intro hx
          rcases List.mem_cons.mp hx with h | h
          · exact absurd h hxa
          · obtain ⟨h1, h2⟩ := (ih (a :: seen) x).mp h
            exact ⟨List.mem_cons_of_mem a h1, fun hc => h2 (List.mem_cons_of_mem a hc)⟩
        · rintro ⟨hx, hns⟩
          rcases List.mem_cons.mp hx with h | h
          · exact absurd h hxa
          · refine List.mem_cons_of_mem a ((ih (a :: seen) x).mpr ⟨h, ?_⟩)
            intro hc
            rcases List.mem_cons.mp hc with h2 | h2
            · exact hxa h2
            · exact hns h2

theorem mem_dedupFirst (l : List String) (x : String) :
    x ∈ dedupFirst l ↔ x ∈ l := by
  rw [dedupFirst, mem_dedupFirstAux]
  simp

theorem dedupFirst_cons (y : String) (ys : List String) :
    dedupFirst (y :: ys) = y :: dedupFirstAux [y] ys := by
  rw [dedupFirst, dedupFirstAux]
  simp

/-- The max scan returns the first element of the candidate list that
attains the maximal key: every candidate strictly before it has a strictly
smaller key, and no candidate has a larger one. -/
theorem pickMax_decomp (f : String → ℕ) (cs : List String) :
    ∀ b : String,
      ∃ pre post,
        b :: cs = pre ++ pickMax f b cs :: post ∧
        (∀ x ∈ pre, f x < f (pickMax f b cs)) ∧
        (∀ x ∈ b :: cs, f x ≤ f (pickMax f b cs)) := by
  induction cs with
  | nil =>
    intro b
    exact ⟨[], [], rfl, by simp, by simp [pickMax]⟩
  | cons x xs ih =>
    intro b
    by_cases h : f b < f x
    · have hred : pickMax f b (x :: xs) = pickMax f x xs := by
        rw [pickMax, if_pos h]
      obtain ⟨pre, post, hdec, hpre, hall⟩ := ih x
      have hx : f x ≤ f (pickMax f x xs) := hall x (List.mem_cons_self x xs)
      refine ⟨b :: pre, post, ?_, ?_, ?_⟩
      · rw [hred, List.cons_append, ← hdec]
      · intro y hy
        rcases List.mem_cons.mp hy with h1 | h1
        · rw [hred, h1]; exact lt_of_lt_of_le h hx
        · rw [hred]; exact hpre y h1
      · intro y hy
        rcases List.mem_cons.mp hy with h1 | h1
        · rw [hred, h1]; exact le_of_lt (lt_of_lt_of_le h hx)
        · rw [hred]; exact hall y h1
    · have hred : pickMax f b (x :: xs) = pickMax f b xs := by
        rw [pickMax, if_neg h]
      have hxb : f x ≤ f b := Nat.le_of_not_lt h
      obtain ⟨pre, post, hdec, hpre, hall⟩ := ih b
      have hb : f b ≤ f (pickMax f b xs) := hall b (List.mem_cons_self b xs)
      cases pre with
      | nil =>
        simp only [List.nil_append] at hdec
        have hr : pickMax f b xs = b := (List.cons.injEq _ _ _ _ ▸ hdec).1.symm
        have hpost : xs = post := (List.cons.injEq _ _ _ _ ▸ hdec).2
        refine ⟨[], x :: post, ?_, by simp, ?_⟩
        · rw [hred, List.nil_append, hr, hpost]
        · intro y hy
          rw [hred]
          rcases List.mem_cons.mp hy with h1 | h1
          · rw [h1]; exact hb
          · rcases List.mem_cons.mp h1 with h2 | h2
            · rw [h2]; exact le_trans hxb hb
            · exact hall y (List.mem_cons_of_mem b (hpost ▸ h2))
      | cons p pre2 =>
        rw [List.cons_append] at hdec
        have hpb : b = p := (List.cons.injEq _ _ _ _ ▸ hdec).1
        have hxs : xs = pre2 ++ pickMax f b xs :: post :=
          (List.cons.injEq _ _ _ _ ▸ hdec).2
        have hbr : f b < f (pickMax f b xs) := hpb ▸ hpre p (List.mem_cons_self p pre2)
        refine ⟨b :: x :: pre2, post, ?_, ?_, ?_⟩
        · rw [hred, List.cons_append, List.cons_append, ← hxs]
        · intro y hy
          rw [hred]
          rcases List.mem_cons.mp hy with h1 | h1
          · rw [h1]; exact hbr
          · rcases List.mem_cons.mp h1 with h2 | h2
            · rw [h2]; exact lt_of_le_of_lt hxb hbr
            · exact hpre y (List.mem_cons_of_mem p h2)
        · intro y hy
          rw [hred]
          rcases List.mem_cons.mp hy with h1 | h1
          · rw [h1]; exact hall b (List.mem_cons_self b xs)
          · rcases List.mem_cons.mp h1 with h2 | h2
            · rw [h2]; exact le_trans hxb hb
            · exact hall y (List.mem_cons_of_mem b h2)

/-- Characterisation of Counter.most_common(1) on a non-empty list: it
returns a label of maximal count, and every label whose first occurrence
comes earlier has a strictly smaller count. -/
theorem counterMostCommon_spec (l : List String) (hl : l ≠ []) :
    ∃ r pre post,
      counterMostCommon l = some r ∧
      dedupFirst l = pre ++ r :: post ∧
      (∀ x ∈ pre, countOcc l x < countOcc l r) ∧
      (∀ x ∈ l, countOcc l x ≤ countOcc l r) := by
  cases l with
  | nil => exact absurd rfl hl
  | cons y ys =>
    have hded := dedupFirst_cons y ys
    obtain ⟨pre, post, hdec, hpre, hall⟩ :=
      pickMax_decomp (countOcc (y :: ys)) (dedupFirstAux [y] ys) y
    refine ⟨pickMax (countOcc (y :: ys)) y (dedupFirstAux [y] ys), pre, post, ?_, ?_, hpre, ?_⟩
    · rw [counterMostCommon, hded]
    · rw [hded, hdec]
    · intro x hx
      have hx2 : x ∈ dedupFirst (y :: ys) := (mem_dedupFirst _ x).mpr hx
      rw [hded] at hx2
      exact hall x hx2

theorem counterMostCommon_nil : counterMostCommon [] = none := by
  rw [counterMostCommon]; simp [dedupFirst, dedupFirstAux]

theorem counterMostCommon_mem (l : List String) (r : String)
    (h : counterMostCommon l = some r) : r ∈ l := by
  have hl : l ≠ [] := by
    intro he
    rw [he, counterMostCommon_nil] at h
    exact Option.noConfusion h
  obtain ⟨r2, pre, post, hcm, hdec, _, _⟩ := counterMostCommon_spec l hl
  have hr : r2 = r := by rw [hcm] at h; exact Option.some.inj h
  have hmem : r2 ∈ dedupFirst l := by
    rw [hdec]
    exact List.mem_append_right pre (List.mem_cons_self r2 post)
  exact hr ▸ (mem_dedupFirst l r2).mp hmem

theorem counterMostCommon_eq_none (l : List String) :
    counterMostCommon l = none ↔ l = [] := by
  cases l with
  | nil => simp [counterMostCommon_nil]
  | cons y ys =>
    rw [counterMostCommon, dedupFirst_cons]
    simp

/-- The UNK sentinel is returned exactly when no vote exists. -/
theorem speakerOfVotes_of_ne_unk (votes : List String)
    (hv : ∀ v ∈ votes, v ≠ "UNK") (hne : votes ≠ []) :
    speakerOfVotes votes ∈ votes ∧ speakerOfVotes votes ≠ "UNK" := by
  obtain ⟨r, pre, post, hcm, _, _, _⟩ := counterMostCommon_spec votes hne
  have hs : speakerOfVotes votes = r := by rw [speakerOfVotes, hcm]
  have hmem : r ∈ votes := counterMostCommon_mem votes r hcm
  exact ⟨hs ▸ hmem, hs ▸ hv r hmem⟩

theorem speakerOfVotes_nil : speakerOfVotes [] = "UNK" := by
  rw [speakerOfVotes, counterMostCommon_nil]

/-- The dominant speaker of a fragment with no labelled word is UNK. -/
theorem getDominantSpeaker_of_no_labels (results : List RTResult)
    (h : extractSpeakers results = []) : getDominantSpeaker results = "UNK" := by
  rw [getDominantSpeaker, h, speakerOfVotes_nil]

/-! Helper lemmas about the session handlers. -/

theorem on_final_running (m : FinalMsg) (s : SessionState) :
    (on_final m s).running = s.running := by
  rw [on_final]
  split_ifs <;> rfl

theorem on_final_texts (m : FinalMsg) (s : SessionState) (h : s.running = true) :
    (on_final m s).utterance_texts = s.utterance_texts ++ (textOf m).toList := by
  rw [on_final, textOf, h]
  split_ifs with h1 h2 <;> simp_all

theorem on_final_speakers (m : FinalMsg) (s : SessionState) (h : s.running = true) :
    (on_final m s).utterance_speakers = s.utterance_speakers ++ (voteOf m).toList := by
  rw [on_final, voteOf, h]
  split_ifs with h1 h2 <;> simp_all

theorem on_final_end (m : FinalMsg) (s : SessionState) (h : s.running = true)
    (hb : pyStrip m.transcript ≠ "") : (on_final m s).utterance_end = m.end_time := by
  rw [on_final, h]
  split_ifs with h1 h2 <;> simp_all

theorem runFinals_nil (s : SessionState) : runFinals [] s = s := rfl

theorem runFinals_cons (m : FinalMsg) (ms : List FinalMsg) (s : SessionState) :
    runFinals (m :: ms) s = runFinals ms (on_final m s) := rfl

theorem runFinals_running (msgs : List FinalMsg) :
    ∀ s : SessionState, (runFinals msgs s).running = s.running := by
  induction msgs with
  | nil => intro s; rfl
  | cons m ms ih =>
    intro s
    rw [runFinals_cons, ih, on_final_running]

theorem runFinals_texts (msgs : List FinalMsg) :
    ∀ s : SessionState, s.running = true →
      (runFinals msgs s).utterance_texts = s.utterance_texts ++ msgs.filterMap textOf := by
  induction msgs with
  | nil => intro s _; simp [runFinals_nil]
  | cons m ms ih =>
    intro s h
    rw [runFinals_cons, ih (on_final m s) (by rw [on_final_running]; exact h),
      on_final_texts m s h, List.filterMap_cons]
    cases htm : textOf m <;> simp [List.append_assoc]

theorem runFinals_speakers (msgs : List FinalMsg) :
    ∀ s : SessionState, s.running = true →
      (runFinals msgs s).utterance_speakers = s.utterance_speakers ++ msgs.filterMap voteOf := by
  induction msgs with
  | nil => intro s _; simp [runFinals_nil]
  | cons m ms ih =>
    intro s h
    rw [runFinals_cons, ih (on_final m s) (by rw [on_final_running]; exact h),
      on_final_speakers m s h, List.filterMap_cons]
    cases htm : voteOf m <;> simp [List.append_assoc]

theorem runFinals_end (msgs : List FinalMsg) :
    ∀ (s : SessionState) (hne : msgs ≠ []), s.running = true →
      (∀ m ∈ msgs, pyStrip m.transcript ≠ "") →
      (runFinals msgs s).utterance_end = (msgs.getLast hne).end_time := by
  induction msgs with
  | nil => intro s hne; exact absurd rfl hne
  | cons m ms ih =>
    intro s hne hrun hall
    cases ms with
    | nil =>
      rw [runFinals_cons, runFinals_nil, List.getLast_singleton]
      exact on_final_end m s hrun (hall m (List.mem_cons_self m []))
    | cons m2 ms2 =>
      have hms2 : m2 :: ms2 ≠ [] := by simp
      rw [runFinals_cons, List.getLast_cons hms2]
      exact ih (on_final m s) hms2 (by rw [on_final_running]; exact hrun)
        (fun x hx => hall x (List.mem_cons_of_mem m hx))

theorem filterMap_textOf_of_nonblank (msgs : List FinalMsg)
    (hb : ∀ m ∈ msgs, pyStrip m.transcript ≠ "") :
    msgs.filterMap textOf = msgs.map (fun m => pyStrip m.transcript) := by
  induction msgs with
  | nil => rfl
  | cons m ms ih =>
    rw [List.filterMap_cons, List.map_cons]
    have hm : textOf m = some (pyStrip m.transcript) := by
      rw [textOf, if_neg (hb m (List.mem_cons_self m ms))]
    rw [hm, ih (fun x hx => hb x (List.mem_cons_of_mem m hx))]

theorem on_eou_emit (em : EouMsg) (s : SessionState)
    (hrun : s.running = true) (hne : s.utterance_texts ≠ []) :
    on_eou em s = (⟨[], [], 0, 0, s.running⟩,
      some ⟨String.intercalate " " s.utterance_texts,
            speakerOfVotes s.utterance_speakers,
            s.utterance_start, s.utterance_end, false⟩) := by
  rw [on_eou, hrun]
  simp [hne]

theorem runFinals_active_texts (msgs : List FinalMsg)
    (hb : ∀ m ∈ msgs, pyStrip m.transcript ≠ "") :
    (runFinals msgs activeSession).utterance_texts =
      msgs.map (fun m => pyStrip m.transcript) := by
  rw [runFinals_texts msgs activeSession rfl, filterMap_textOf_of_nonblank msgs hb]
  rfl

theorem runFinals_active_texts_ne_nil (msgs : List FinalMsg) (hne : msgs ≠ [])
    (hb : ∀ m ∈ msgs, pyStrip m.transcript ≠ "") :
    (runFinals msgs activeSession).utterance_texts ≠ [] := by
  rw [runFinals_active_texts msgs hb]
  simpa using hne

/-! The claims. -/

/-- C1: accumulating any non-empty sequence of final fragments with
non-blank text through on_final and flushing with one END_OF_UTTERANCE
emits an utterance whose text is the space-join of the stripped fragment
texts in arrival order. -/
theorem c1_eou_text_is_space_join (msgs : List FinalMsg) (em : EouMsg)
    (hne : msgs ≠ []) (hb : ∀ m ∈ msgs, pyStrip m.transcript ≠ "") :
    ∃ u, (on_eou em (runFinals msgs activeSession)).2 = some u ∧
      u.text = String.intercalate " " (msgs.map (fun m => pyStrip m.transcript)) := by
  have hrun : (runFinals msgs activeSession).running = true := runFinals_running msgs activeSession
  have hne2 := runFinals_active_texts_ne_nil msgs hne hb
  rw [on_eou_emit em _ hrun hne2]
  exact ⟨_, rfl, by rw [runFinals_active_texts msgs hb]⟩

/-- C1 witness: two concrete fragments produce the text Hello there. -/
theorem c1_witness :
    ∃ u, (on_eou ⟨none⟩ (runFinals
        [⟨" Hello ", 0, 1/2, []⟩, ⟨"there", 1/2, 1, []⟩] activeSession)).2 = some u ∧
      u.text = "Hello there" := by
  obtain ⟨u, h1, h2⟩ := c1_eou_text_is_space_join
    [⟨" Hello ", 0, 1/2, []⟩, ⟨"there", 1/2, 1, []⟩] ⟨none⟩ (by decide) (by decide)
  refine ⟨u, h1, ?_⟩
  rw [h2]
  decide

/-- C2 counterexample: the end-to-end example of the spec, with an explicit
end-of-turn timestamp of 1.2 carried by the END_OF_UTTERANCE message,
emits an utterance whose endTime is 1.0 (the endTime of the last fragment), not
1.2: the handler never reads the message. -/
theorem c2_counterexample :
    (((on_eou ⟨some (6/5)⟩ (runFinals
        [⟨"Hello", 0, 1/2, [⟨"word", [⟨"Hello", some "S1"⟩]⟩]⟩,
         ⟨"there", 1/2, 1, [⟨"word", [⟨"there", some "S1"⟩]⟩]⟩] activeSession)).2).map
        DiarizedTranscript.end_time = some 1) ∧ (1 : ℚ) ≠ 6/5 := by
  constructor
  · rfl
  · norm_num

/-- C2 amended: the endTime of the emitted utterance always equals the
endTime of the last accumulated fragment, whatever end-of-turn timestamp the
END_OF_UTTERANCE message carries. -/
theorem c2_end_time_is_last_fragment (msgs : List FinalMsg) (em : EouMsg)
    (hne : msgs ≠ []) (hb : ∀ m ∈ msgs, pyStrip m.transcript ≠ "") :
    ((on_eou em (runFinals msgs activeSession)).2).map DiarizedTranscript.end_time =
      some ((msgs.getLast hne).end_time) := by
  have hrun : (runFinals msgs activeSession).running = true := runFinals_running msgs activeSession
  have hne2 := runFinals_active_texts_ne_nil msgs hne hb
  rw [on_eou_emit em _ hrun hne2]
  show some ((runFinals msgs activeSession).utterance_end) = some ((msgs.getLast hne).end_time)
  rw [runFinals_end msgs activeSession hne rfl hb]

/-- C2 amended witness: the example run, with an explicit timestamp
present, ends at the endTime 1.0 of the last fragment. -/
theorem c2_witness :
    ((on_eou ⟨some (6/5)⟩ (runFinals
        [⟨"Hello", 0, 1/2, [⟨"word", [⟨"Hello", some "S1"⟩]⟩]⟩,
         ⟨"there", 1/2, 1, [⟨"word", [⟨"there", some "S1"⟩]⟩]⟩] activeSession)).2).map
        DiarizedTranscript.end_time = some 1 :=
  c2_end_time_is_last_fragment
    [⟨"Hello", 0, 1/2, [⟨"word", [⟨"Hello", some "S1"⟩]⟩]⟩,
     ⟨"there", 1/2, 1, [⟨"word", [⟨"there", some "S1"⟩]⟩]⟩] ⟨some (6/5)⟩
    (by decide) (by decide)

/-- C3 counterexample: with per-word speakers S1, S2, S2, S1 the first
label to reach the maximum count 2 in input order is S2 (at the third
word), but the resolver returns S1, the label whose first occurrence is
earliest. -/
theorem c3_counterexample :
    getDominantSpeaker
      [⟨"word", [⟨"a", some "S1"⟩]⟩, ⟨"word", [⟨"b", some "S2"⟩]⟩,
       ⟨"word", [⟨"c", some "S2"⟩]⟩, ⟨"word", [⟨"d", some "S1"⟩]⟩] = "S1" ∧
    firstToReachMax (extractSpeakers
      [⟨"word", [⟨"a", some "S1"⟩]⟩, ⟨"word", [⟨"b", some "S2"⟩]⟩,
       ⟨"word", [⟨"c", some "S2"⟩]⟩, ⟨"word", [⟨"d", some "S1"⟩]⟩]) = some "S2" ∧
    ("S1" : String) ≠ "S2" := by
  decide

/-- C3 amended: on any result list with at least one labelled word the
resolver returns a label of maximal occurrence count; ties are broken in
favour of the label whose first occurrence comes earliest in input order
(every label occurring earlier in Counter insertion order has a strictly
smaller count). -/
theorem c3_dominant_is_first_max (results : List RTResult)
    (hne : extractSpeakers results ≠ []) :
    getDominantSpeaker results ∈ extractSpeakers results ∧
    (∀ x ∈ extractSpeakers results,
      countOcc (extractSpeakers results) x ≤
        countOcc (extractSpeakers results) (getDominantSpeaker results)) ∧
    ∃ pre post,
      dedupFirst (extractSpeakers results) = pre ++ getDominantSpeaker results :: post ∧
      ∀ x ∈ pre, countOcc (extractSpeakers results) x <
        countOcc (extractSpeakers results) (getDominantSpeaker results) := by
  obtain ⟨r, pre, post, hcm, hdec, hpre, hall⟩ := counterMostCommon_spec _ hne
  have hg : getDominantSpeaker results = r := by
    rw [getDominantSpeaker, speakerOfVotes, hcm]
  refine ⟨?_, ?_, pre, post, ?_, ?_⟩
  · rw [hg]; exact counterMostCommon_mem _ r hcm
  · rw [hg]; exact hall
  · rw [hg]; exact hdec
  · rw [hg]; exact hpre

/-- C3 amended witness: at the tie input the resolver indeed returns S1,
which attains the maximal count and is first in insertion order. -/
theorem c3_witness :
    getDominantSpeaker
      [⟨"word", [⟨"a", some "S1"⟩]⟩, ⟨"word", [⟨"b", some "S2"⟩]⟩,
       ⟨"word", [⟨"c", some "S2"⟩]⟩, ⟨"word", [⟨"d", some "S1"⟩]⟩] ∈ extractSpeakers
      [⟨"word", [⟨"a", some "S1"⟩]⟩, ⟨"word", [⟨"b", some "S2"⟩]⟩,
       ⟨"word", [⟨"c", some "S2"⟩]⟩, ⟨"word", [⟨"d", some "S1"⟩]⟩] ∧
    (∀ x ∈ extractSpeakers
      [⟨"word", [⟨"a", some "S1"⟩]⟩, ⟨"word", [⟨"b", some "S2"⟩]⟩,
       ⟨"word", [⟨"c", some "S2"⟩]⟩, ⟨"word", [⟨"d", some "S1"⟩]⟩],
      countOcc (extractSpeakers
        [⟨"word", [⟨"a", some "S1"⟩]⟩, ⟨"word", [⟨"b", some "S2"⟩]⟩,
         ⟨"word", [⟨"c", some "S2"⟩]⟩, ⟨"word", [⟨"d", some "S1"⟩]⟩]) x ≤
        countOcc (extractSpeakers
          [⟨"word", [⟨"a", some "S1"⟩]⟩, ⟨"word", [⟨"b", some "S2"⟩]⟩,
           ⟨"word", [⟨"c", some "S2"⟩]⟩, ⟨"word", [⟨"d", some "S1"⟩]⟩])
          (getDominantSpeaker
            [⟨"word", [⟨"a", some "S1"⟩]⟩, ⟨"word", [⟨"b", some "S2"⟩]⟩,
             ⟨"word", [⟨"c", some "S2"⟩]⟩, ⟨"word", [⟨"d", some "S1"⟩]⟩])) ∧
    ∃ pre post,
      dedupFirst (extractSpeakers
        [⟨"word", [⟨"a", some "S1"⟩]⟩, ⟨"word", [⟨"b", some "S2"⟩]⟩,
         ⟨"word", [⟨"c", some "S2"⟩]⟩, ⟨"word", [⟨"d", some "S1"⟩]⟩]) =
        pre ++ getDominantSpeaker
          [⟨"word", [⟨"a", some "S1"⟩]⟩, ⟨"word", [⟨"b", some "S2"⟩]⟩,
           ⟨"word", [⟨"c", some "S2"⟩]⟩, ⟨"word", [⟨"d", some "S1"⟩]⟩] :: post ∧
      ∀ x ∈ pre, countOcc (extractSpeakers
        [⟨"word", [⟨"a", some "S1"⟩]⟩, ⟨"word", [⟨"b", some "S2"⟩]⟩,
         ⟨"word", [⟨"c", some "S2"⟩]⟩, ⟨"word", [⟨"d", some "S1"⟩]⟩]) x <
        countOcc (extractSpeakers
          [⟨"word", [⟨"a", some "S1"⟩]⟩, ⟨"word", [⟨"b", some "S2"⟩]⟩,
           ⟨"word", [⟨"c", some "S2"⟩]⟩, ⟨"word", [⟨"d", some "S1"⟩]⟩])
          (getDominantSpeaker
            [⟨"word", [⟨"a", some "S1"⟩]⟩, ⟨"word", [⟨"b", some "S2"⟩]⟩,
             ⟨"word", [⟨"c", some "S2"⟩]⟩, ⟨"word", [⟨"d", some "S1"⟩]⟩]) :=
  c3_dominant_is_first_max
    [⟨"word", [⟨"a", some "S1"⟩]⟩, ⟨"word", [⟨"b", some "S2"⟩]⟩,
     ⟨"word", [⟨"c", some "S2"⟩]⟩, ⟨"word", [⟨"d", some "S1"⟩]⟩] (by decide)

/-- C4 counterexample: on an empty result list the resolver returns the
string UNK, not the string UNKNOWN the claim names. -/
theorem c4_counterexample :
    getDominantSpeaker [] ≠ "UNKNOWN" ∧ getDominantSpeaker [] = "UNK" := by
  decide

/-- C4 amended: the sentinel is the string UNK: the resolver returns UNK on
any result list with no speaker-labelled word (the empty list included),
and a flushed turn with no recorded speaker vote carries speaker UNK. -/
theorem c4_unk_sentinel :
    (∀ results : List RTResult, extractSpeakers results = [] →
      getDominantSpeaker results = "UNK") ∧
    (∀ (em : EouMsg) (s : SessionState), s.running = true →
      s.utterance_texts ≠ [] → s.utterance_speakers = [] →
      ((on_eou em s).2).map DiarizedTranscript.speaker = some "UNK") := by
  constructor
  · exact getDominantSpeaker_of_no_labels
  · intro em s h1 h2 h3
    rw [on_eou_emit em s h1 h2]
    show some (speakerOfVotes s.utterance_speakers) = some "UNK"
    rw [h3, speakerOfVotes_nil]

/-- C4 amended witness: a punctuation-only result list resolves to UNK, and
an accumulated turn without votes is emitted with speaker UNK. -/
theorem c4_witness :
    getDominantSpeaker [⟨"punctuation", [⟨".", none⟩]⟩] = "UNK" ∧
    ((on_eou ⟨none⟩ ⟨["Hi"], [], 0, 1, true⟩).2).map DiarizedTranscript.speaker =
      some "UNK" :=
  ⟨c4_unk_sentinel.1 [⟨"punctuation", [⟨".", none⟩]⟩] (by decide),
   c4_unk_sentinel.2 ⟨none⟩ ⟨["Hi"], [], 0, 1, true⟩ rfl (by decide) rfl⟩

/-- C5: on any running state with at least one pending fragment, flush
emits exactly one utterance, and it is the utterance an END_OF_UTTERANCE
with no explicit timestamp would have emitted from the same state. -/
theorem c5_flush_equals_eou (em : EouMsg) (s : SessionState)
    (hrun : s.running = true) (hne : s.utterance_texts ≠ []) :
    (flush_utterance s).2.isSome = true ∧ (flush_utterance s).2 = (on_eou em s).2 := by
  rw [flush_utterance, on_eou, hrun]
  simp [hne]

/-- C5 witness: a concrete running state with two pending fragments. -/
theorem c5_witness :
    (flush_utterance ⟨["Hello", "there"], ["S1"], 0, 1, true⟩).2.isSome = true ∧
    (flush_utterance ⟨["Hello", "there"], ["S1"], 0, 1, true⟩).2 =
      (on_eou ⟨none⟩ ⟨["Hello", "there"], ["S1"], 0, 1, true⟩).2 :=
  c5_flush_equals_eou ⟨none⟩ ⟨["Hello", "there"], ["S1"], 0, 1, true⟩ rfl (by decide)

/-- C6 counterexample: flush clears the pending fragments but leaves the
turn start time at 0.5, so after flush the list is empty while the start
time is not at its initial value; and a fragment starting at time 0.0
leaves the start time at its initial value while the list is non-empty. -/
theorem c6_counterexample :
    ((flush_utterance (on_final ⟨"hello", 1/2, 1, []⟩ activeSession)).1.utterance_texts = [] ∧
     (flush_utterance (on_final ⟨"hello", 1/2, 1, []⟩ activeSession)).1.utterance_start ≠ 0) ∧
    ((on_final ⟨"hi", 0, 1, []⟩ activeSession).utterance_texts ≠ [] ∧
     (on_final ⟨"hi", 0, 1, []⟩ activeSession).utterance_start = 0) := by
  refine ⟨⟨rfl, ?_⟩, ?_, rfl⟩
  · show (1/2 : ℚ) ≠ 0
    norm_num
  · show ("hi" :: [] : List String) ≠ []
    simp

/-- C6 amended: the implication that an empty pending list forces the turn
start time to its initial value 0.0 holds at construction and in a fresh
running session, and is preserved by on_final and on_eou; flush is excluded
since it clears the pending list without resetting the start time, and the
converse implication fails for turns whose first fragment starts at 0.0. -/
theorem c6_inv_preserved :
    accumInv initSession ∧ accumInv activeSession ∧
    (∀ (m : FinalMsg) (s : SessionState), accumInv s → accumInv (on_final m s)) ∧
    (∀ (em : EouMsg) (s : SessionState), accumInv s → accumInv (on_eou em s).1) := by
  refine ⟨fun _ => rfl, fun _ => rfl, ?_, ?_⟩
  · intro m s h
    rw [on_final]
    split_ifs
    · exact h
    · exact h
    all_goals
      intro habs
      exact absurd habs (by simp)
  · intro em s h
    rw [on_eou]
    split_ifs
    · exact h
    · exact fun _ => rfl

/-- C6 amended witness: preservation applied to a concrete step. -/
theorem c6_witness : accumInv (on_final ⟨"Hi", 0, 1, []⟩ activeSession) :=
  c6_inv_preserved.2.2.1 ⟨"Hi", 0, 1, []⟩ activeSession (by decide)

/-- C7: a final fragment whose text is empty or whitespace-only leaves the
whole session state unchanged, and an end-of-turn with no pending
fragments emits nothing and changes nothing. -/
theorem c7_malformed_input_noop :
    (∀ (m : FinalMsg) (s : SessionState), pyStrip m.transcript = "" → on_final m s = s) ∧
    (∀ (em : EouMsg) (s : SessionState), s.utterance_texts = [] →
      on_eou em s = (s, none)) := by
  constructor
  · intro m s h
    rw [on_final]
    split_ifs
    · rfl
    · rfl
  · intro em s h
    rw [on_eou, if_pos (Or.inr h)]

/-- C7 witness: a whitespace-only fragment and a spurious end-of-turn are
both no-ops on a fresh running session. -/
theorem c7_witness :
    on_final ⟨" \t ", 0, 1, []⟩ activeSession = activeSession ∧
    on_eou ⟨some 2⟩ activeSession = (activeSession, none) :=
  ⟨c7_malformed_input_noop.1 ⟨" \t ", 0, 1, []⟩ activeSession (by decide),
   c7_malformed_input_noop.2 ⟨some 2⟩ activeSession rfl⟩

/-! Debounce helper. -/

theorem runCalls_of_live_timer (ts : List ℚ) :
    ∀ (s : DebounceState) (u : ℚ), s.timer = some u → s.pending = true →
      runCalls ts s = ⟨true, some u, s.execs⟩ := by
  induction ts with
  | nil =>
    intro s u ht hp
    obtain ⟨p, t, e⟩ := s
    simp only at ht hp
    rw [ht, hp]
    rfl
  | cons t ts2 ih =>
    intro s u ht hp
    have hs : scheduleCall t s = ⟨true, some u, s.execs⟩ := by
      rw [scheduleCall, ht]
    rw [runCalls, List.foldl_cons, hs]
    exact ih ⟨true, some u, s.execs⟩ u rfl rfl

/-- C8: during a burst of final-transcript arrivals in chronological order
that all land before the single pending countdown (started by the first
arrival) fires, the state keeps exactly one live countdown, and when it
fires the extraction body runs exactly once and the burst is fully
consumed. -/
theorem c8_burst_single_execution (ts : List ℚ) (hne : ts ≠ [])
    (hchain : List.Chain' (· ≤ ·) ts)
    (hburst : ∀ t ∈ ts, t < ts.head hne + quietPeriod) :
    (runCalls ts debInit).pending = true ∧
    (runCalls ts debInit).timer = some (ts.head hne + quietPeriod) ∧
    (runCalls ts debInit).execs = 0 ∧
    (fireTimer (runCalls ts debInit)).execs = 1 ∧
    (fireTimer (runCalls ts debInit)).pending = false ∧
    (fireTimer (runCalls ts debInit)).timer = none := by
  cases ts with
  | nil => exact absurd rfl hne
  | cons t ts2 =>
    have h1 : runCalls (t :: ts2) debInit =
        runCalls ts2 ⟨true, some (t + quietPeriod), 0⟩ := rfl
    have h2 : runCalls ts2 ⟨true, some (t + quietPeriod), 0⟩ =
        ⟨true, some (t + quietPeriod), 0⟩ :=
      runCalls_of_live_timer ts2 ⟨true, some (t + quietPeriod), 0⟩ (t + quietPeriod) rfl rfl
    rw [h1, h2]
    exact ⟨rfl, rfl, rfl, rfl, rfl, rfl⟩

/-- C8 witness: three arrivals at 0, 0.7 and 1.4 seconds, each within half
the 1.5-second quiet period of the previous one and all before the
countdown started at 0 fires at 1.5, produce exactly one execution. -/
theorem c8_witness :
    (runCalls [0, 7/10, 7/5] debInit).pending = true ∧
    (runCalls [0, 7/10, 7/5] debInit).timer = some ((0 : ℚ) + quietPeriod) ∧
    (runCalls [0, 7/10, 7/5] debInit).execs = 0 ∧
    (fireTimer (runCalls [0, 7/10, 7/5] debInit)).execs = 1 ∧
    (fireTimer (runCalls [0, 7/10, 7/5] debInit)).pending = false ∧
    (fireTimer (runCalls [0, 7/10, 7/5] debInit)).timer = none :=
  c8_burst_single_execution [0, 7/10, 7/5] (by decide) (by norm_num)
    (by intro t ht; fin_cases ht <;> norm_num [quietPeriod])

/-- C9: infer_role decides by the strict precedence the claim states:
pattern-count comparison first regardless of history, then the recorded
role of the speaker id, then the S1 and S2 defaults, then UNKNOWN. -/
theorem c9_infer_role_precedence :
    ∀ (text speaker_id : String) (hist : List (String × SpeakerRole)),
      infer_role text speaker_id hist = inferRoleClaimed text speaker_id hist := by
  intro text speaker_id hist
  rfl

/-- C10: the UNK sentinel is never recorded as a speaker vote, so when the
per-word labels themselves are never the literal UNK, a completed turn is
emitted with speaker UNK exactly when no accumulated fragment contained a
speaker-labelled word, and otherwise with a label occurring on some word
of the turn. -/
theorem c10_unk_iff_no_labels (msgs : List FinalMsg) (em : EouMsg)
    (hlab : ∀ m ∈ msgs, ∀ lbl ∈ extractSpeakers m.results, lbl ≠ "UNK")
    (hsome : ∃ m, m ∈ msgs ∧ pyStrip m.transcript ≠ "") :
    ∃ u, (on_eou em (runFinals msgs activeSession)).2 = some u ∧
      (u.speaker = "UNK" ↔
        ∀ m ∈ msgs, pyStrip m.transcript ≠ "" → extractSpeakers m.results = []) ∧
      (u.speaker ≠ "UNK" →
        ∃ m, m ∈ msgs ∧ pyStrip m.transcript ≠ "" ∧ u.speaker ∈ extractSpeakers m.results) := by
  have hrun : (runFinals msgs activeSession).running = true := runFinals_running msgs activeSession
  have htexts : (runFinals msgs activeSession).utterance_texts = msgs.filterMap textOf := by
    rw [runFinals_texts msgs activeSession rfl]
    rfl
  have hspk : (runFinals msgs activeSession).utterance_speakers = msgs.filterMap voteOf := by
    rw [runFinals_speakers msgs activeSession rfl]
    rfl
  have hne : (runFinals msgs activeSession).utterance_texts ≠ [] := by
    rw [htexts]
    obtain ⟨m, hm, hb⟩ := hsome
    have : pyStrip m.transcript ∈ msgs.filterMap textOf :=
      List.mem_filterMap.mpr ⟨m, hm, by rw [textOf, if_neg hb]⟩
    exact List.ne_nil_of_mem this
  rw [on_eou_emit em _ hrun hne]
  refine ⟨_, rfl, ?_, ?_⟩
  · rw [hspk]
    cases hcm : counterMostCommon (msgs.filterMap voteOf) with
    | none =>
      have hnil : msgs.filterMap voteOf = [] := (counterMostCommon_eq_none _).mp hcm
      have hforall : ∀ m ∈ msgs, pyStrip m.transcript ≠ "" → extractSpeakers m.results = [] := by
        intro m hm hb
        have hvm : voteOf m = none := by
          rcases hv : voteOf m with _ | v
          · rfl
          · exact absurd (List.mem_filterMap.mpr ⟨m, hm, hv⟩) (by rw [hnil]; simp)
        rw [voteOf, if_neg hb] at hvm
        by_contra hext
        obtain ⟨hmem, hunk⟩ := speakerOfVotes_of_ne_unk (extractSpeakers m.results)
          (hlab m hm) hext
        rw [if_pos ?_] at hvm
        · exact Option.noConfusion hvm
        · exact hunk
      constructor
      · intro _
        exact hforall
      · intro _
        rw [speakerOfVotes, hcm]
    | some r =>
      have hr : speakerOfVotes (msgs.filterMap voteOf) = r := by
        rw [speakerOfVotes, hcm]
      have hrm : r ∈ msgs.filterMap voteOf := counterMostCommon_mem _ r hcm
      obtain ⟨m, hm, hvm⟩ := List.mem_filterMap.mp hrm
      have hbm : pyStrip m.transcript ≠ "" := by
        intro hb
        rw [voteOf, if_pos hb] at hvm
        exact Option.noConfusion hvm
      rw [voteOf, if_neg hbm] at hvm
      have hdm : getDominantSpeaker m.results = r ∧ r ≠ "UNK" := by
        rcases hd : getDominantSpeaker m.results ≠ "UNK" with _
        by_cases hd2 : getDominantSpeaker m.results ≠ "UNK"
        · rw [if_pos hd2] at hvm
          have := Option.some.inj hvm
          exact ⟨this, this ▸ hd2⟩
        · rw [if_neg hd2] at hvm
          exact absurd hvm (by simp)
      rw [hr]
      constructor
      · intro habs
        exact absurd habs hdm.2
      · intro hall
        have hext : extractSpeakers m.results = [] := hall m hm hbm
        rw [getDominantSpeaker_of_no_labels m.results hext] at hdm
        exact hdm.1.symm
  · intro hspne
    rw [hspk] at hspne
    cases hcm : counterMostCommon (msgs.filterMap voteOf) with
    | none =>
      rw [speakerOfVotes, hcm] at hspne
      exact absurd rfl hspne
    | some r =>
      have hr : speakerOfVotes (msgs.filterMap voteOf) = r := by
        rw [speakerOfVotes, hcm]
      have hrm : r ∈ msgs.filterMap voteOf := counterMostCommon_mem _ r hcm
      obtain ⟨m, hm, hvm⟩ := List.mem_filterMap.mp hrm
      have hbm : pyStrip m.transcript ≠ "" := by
        intro hb
        rw [voteOf, if_pos hb] at hvm
        exact Option.noConfusion hvm
      rw [voteOf, if_neg hbm] at hvm
      by_cases hd2 : getDominantSpeaker m.results ≠ "UNK"
      · rw [if_pos hd2] at hvm
        have hdm : getDominantSpeaker m.results = r := Option.some.inj hvm
        refine ⟨m, hm, hbm, ?_⟩
        rw [hspk, hr]
        have hextne : extractSpeakers m.results ≠ [] := by
          intro hext
          exact hd2 (getDominantSpeaker_of_no_labels m.results hext)
        obtain ⟨hmem, _⟩ := speakerOfVotes_of_ne_unk (extractSpeakers m.results)
          (hlab m hm) hextne
        rw [getDominantSpeaker] at hdm
        exact hdm ▸ hmem
      · rw [if_neg hd2] at hvm
        exact absurd hvm (by simp)

/-- C10 witness: one labelled fragment yields speaker S1, which occurred on
a word of the turn. -/
theorem c10_witness :
    ∃ u, (on_eou ⟨none⟩ (runFinals
        [⟨"Hello", 0, 1/2, [⟨"word", [⟨"Hello", some "S1"⟩]⟩]⟩] activeSession)).2 = some u ∧
      (u.speaker = "UNK" ↔
        ∀ m ∈ [(⟨"Hello", 0, 1/2, [⟨"word", [⟨"Hello", some "S1"⟩]⟩]⟩ : FinalMsg)],
          pyStrip m.transcript ≠ "" → extractSpeakers m.results = []) ∧
      (u.speaker ≠ "UNK" →
        ∃ m, m ∈ [(⟨"Hello", 0, 1/2, [⟨"word", [⟨"Hello", some "S1"⟩]⟩]⟩ : FinalMsg)] ∧
          pyStrip m.transcript ≠ "" ∧ u.speaker ∈ extractSpeakers m.results) :=
  c10_unk_iff_no_labels [⟨"Hello", 0, 1/2, [⟨"word", [⟨"Hello", some "S1"⟩]⟩]⟩] ⟨none⟩
    (by decide)
    ⟨⟨"Hello", 0, 1/2, [⟨"word", [⟨"Hello", some "S1"⟩]⟩]⟩, List.mem_cons_self _ _, by decide⟩

end SpeechAcademy
